import Mathlib

/-! Shallow embedding of `settle_balances.py`: a minimum-transaction debt
settlement engine.  The source builds a flow network from signed balances
(cashouts), solves it with one of two external backends (OR-tools
`SimpleMinCostFlow`, or networkx `max_flow_min_cost` as fallback), extracts
a settlement from the solved flow, and keeps the lowest-edge-count
settlement across randomized trials run in a process pool.  The two solver
libraries are external to the repository; they enter the embedding only
through their contracts (`orFeasible`, `nxMaxFlow`), and the proportional
flows `gflow` / `gnx` serve as executable witnesses that those contracts
are satisfiable on balanced ledgers. -/

namespace Settle

/-- A settlement: for each creditor (by index), the list of
`(debtor index, amount)` payments directed to it.  Mirrors the
`collections.defaultdict(list)` built by both extractors. -/
abbrev Settlement := List (ℕ × List (ℕ × ℤ))

/-- Edge-count score of a settlement:
`cost = sum(len(al) for _, al in settlement.items())` (line 114). -/
def settlementCost (s : Settlement) : ℕ := (s.map (fun p => p.2.length)).sum

/-- The arc list built by `find_settlement_or` (lines 46-54): one arc per
(creditor, debtor) pair, outer loop over creditors (`cashout1 > 0`), inner
loop over debtors (`cashout2 < 0`). -/
def orArcs (c : List ℤ) : List (ℕ × ℕ) :=
  (List.range c.length).flatMap fun i =>
    if 0 < c.getD i 0 then
      (List.range c.length).filterMap fun j =>
        if c.getD j 0 < 0 then some (i, j) else none
    else []

/-- Capacity of the arc from creditor `i` to debtor `j`:
`cap = min(cashout1, -cashout2)` (line 50). -/
def orCap (c : List ℤ) (i j : ℕ) : ℤ := min (c.getD i 0) (-(c.getD j 0))

/-- Net outflow of node `v` under flow `f` in the OR-tools network. -/
def orNetOut (c : List ℤ) (f : ℕ → ℕ → ℤ) (v : ℕ) : ℤ :=
  (∑ j in Finset.range c.length, f v j) - ∑ i in Finset.range c.length, f i v

/-- Feasibility in the OR-tools network: nonnegative flow within capacity on
every built arc, no flow outside the arcs, and net outflow of every node
equal to its supply (`SetNodeSupply(player_id, cashout)`, lines 56-57).
`Solve()` returns `OPTIMAL` exactly when such a flow exists, and then
reports one such flow (of minimum randomized cost — which flow among the
feasible ones is chosen does not matter for the claims below, so the solver
is abstracted as an arbitrary feasible flow). -/
def orFeasible (c : List ℤ) (f : ℕ → ℕ → ℤ) : Prop :=
  (∀ i ∈ Finset.range c.length, ∀ j ∈ Finset.range c.length,
      if 0 < c.getD i 0 ∧ c.getD j 0 < 0
      then 0 ≤ f i j ∧ f i j ≤ orCap c i j
      else f i j = 0) ∧
  ∀ v ∈ Finset.range c.length, orNetOut c f v = c.getD v 0

instance (c : List ℤ) (f : ℕ → ℕ → ℤ) : Decidable (orFeasible c f) := by
  unfold orFeasible; infer_instance

/-- Payments extracted for creditor `i` by `find_settlement_or`
(lines 62-67): one entry per arc out of `i` with strictly positive flow
(`Flow(i) <= 0: continue`), in debtor order. -/
def orPays (c : List ℤ) (f : ℕ → ℕ → ℤ) (i : ℕ) : List (ℕ × ℤ) :=
  (List.range c.length).filterMap fun j =>
    if c.getD j 0 < 0 ∧ 0 < f i j then some (j, f i j) else none

/-- `find_settlement_or` after a successful solve: the settlement extracted
from the flow `f` the solver returned.  The Python `defaultdict` gains one
key per creditor having at least one positive-flow arc, in creditor order
(arcs are iterated in tail-major insertion order). -/
def find_settlement_or (c : List ℤ) (f : ℕ → ℕ → ℤ) : Settlement :=
  (List.range c.length).filterMap fun i =>
    if 0 < c.getD i 0 ∧ orPays c f i ≠ [] then some (i, orPays c f i) else none

/-- Capacity of edge `u → v` in the networkx graph (lines 77-91): `none`
means no such edge.  Node `c.length` is the source, node `c.length + 1` the
sink; `source → debtor` edges carry capacity `-cashout`, `creditor → sink`
edges capacity `cashout`, and `debtor → creditor` edges capacity
`min(-cashout1, cashout2)`. -/
def nxCap (c : List ℤ) (u v : ℕ) : Option ℤ :=
  if u = c.length ∧ v < c.length ∧ c.getD v 0 < 0 then some (-(c.getD v 0))
  else if v = c.length + 1 ∧ u < c.length ∧ 0 < c.getD u 0 then some (c.getD u 0)
  else if u < c.length ∧ v < c.length ∧ c.getD u 0 < 0 ∧ 0 < c.getD v 0 then
    some (min (-(c.getD u 0)) (c.getD v 0))
  else none

/-- A valid flow for the networkx graph: within capacity on every edge (an
absent edge, capacity `none ↦ 0`, carries no flow) and conserved at every
player node. -/
def nxValid (c : List ℤ) (f : ℕ → ℕ → ℤ) : Prop :=
  (∀ u ∈ Finset.range (c.length + 2), ∀ v ∈ Finset.range (c.length + 2),
      0 ≤ f u v ∧ f u v ≤ (nxCap c u v).getD 0) ∧
  ∀ v ∈ Finset.range c.length,
    (∑ u in Finset.range (c.length + 2), f u v)
      = ∑ w in Finset.range (c.length + 2), f v w

instance (c : List ℤ) (f : ℕ → ℕ → ℤ) : Decidable (nxValid c f) := by
  unfold nxValid; infer_instance

/-- Value of a flow: total flow leaving the source node. -/
def nxValue (c : List ℤ) (f : ℕ → ℕ → ℤ) : ℤ :=
  ∑ v in Finset.range (c.length + 2), f c.length v

/-- Contract of `nx.max_flow_min_cost(graph, source, sink)` (line 93,
external library): a valid flow of maximum value.  (Among maximum flows it
is cost-minimal for the randomized weights; the claims below do not depend
on that tie-break, so the solver is abstracted as an arbitrary maximum
flow.) -/
def nxMaxFlow (c : List ℤ) (f : ℕ → ℕ → ℤ) : Prop :=
  nxValid c f ∧ ∀ g, nxValid c g → nxValue c g ≤ nxValue c f

/-- Payments extracted for creditor `i` by `find_settlement_nx`
(lines 95-102): the debtor-to-creditor edges with strictly positive flow
(`payment <= 0: continue`).  The Python dict lists creditor keys in order
of first payment during the debtor-major traversal; the key set and each
per-creditor payment list are identical to this creditor-major form. -/
def nxPays (c : List ℤ) (f : ℕ → ℕ → ℤ) (i : ℕ) : List (ℕ × ℤ) :=
  (List.range c.length).filterMap fun j =>
    if c.getD j 0 < 0 ∧ 0 < f j i then some (j, f j i) else none

/-- `find_settlement_nx` after the solve: the settlement extracted from the
flow `f` the library returned. -/
def find_settlement_nx (c : List ℤ) (f : ℕ → ℕ → ℤ) : Settlement :=
  (List.range c.length).filterMap fun i =>
    if 0 < c.getD i 0 ∧ nxPays c f i ≠ [] then some (i, nxPays c f i) else none

/-- One aggregation step of `find_best_settlement` (lines 115-118): a strict
improvement (`cost < best_cost`) replaces the running best; an equal score
keeps the earlier result. -/
def bestStep (acc : ℕ × Option Settlement) (s : Settlement) : ℕ × Option Settlement :=
  if settlementCost s < acc.1 then (settlementCost s, some s) else acc

/-- An exception escaping `find_best_settlement`: `valueError` is the
`ValueError` that `pool.imap_unordered` raises when its `chunksize`
argument is below 1 (CPython multiprocessing), and `assertError` is a
worker's failed `assert status == OPTIMAL` (line 60) re-raised in the
parent. -/
inductive SearchError
  | valueError
  | assertError
deriving DecidableEq

/-- The chunk size of line 113: `math.ceil(num_trials / cpu_count())` as
ceiling division (`cpu = multiprocessing.cpu_count()`, which is at least 1
on any real machine; the `cpu = 0` case of the model never arises there). -/
def chunkSize (numTrials cpu : ℕ) : ℕ := (numTrials + cpu - 1) / cpu

/-- Consume trial results in arrival order (`pool.imap_unordered`,
line 113).  A `none` entry models a trial whose worker raised (the failed
`assert status == OPTIMAL` on an infeasible solve); iterating
`imap_unordered` re-raises that exception once in the parent, aborting the
search. -/
def collectBest (acc : ℕ × Option Settlement) :
    List (Option Settlement) → Except SearchError (Option Settlement)
  | [] => Except.ok acc.2
  | none :: _ => Except.error SearchError.assertError
  | some s :: rest => collectBest (bestStep acc s) rest

/-- `find_best_settlement` (lines 107-120) over the arrival-ordered list of
per-trial outcomes (one per dispatched trial, so `num_trials =
outcomes.length`): line 113 computes `chunk = ceil(num_trials / cpu)` and
passes it to `pool.imap_unordered`, which raises `ValueError` when the
chunk size is below 1 — exactly when `num_trials = 0`; otherwise the loop
starts from the sentinel `best_cost = len(cashouts) * len(cashouts) + 1`
and `best_settlement = None`. -/
def find_best_settlement (c : List ℤ) (cpu : ℕ) (outcomes : List (Option Settlement)) :
    Except SearchError (Option Settlement) :=
  if chunkSize outcomes.length cpu < 1 then Except.error SearchError.valueError
  else collectBest (c.length * c.length + 1, none) outcomes

/-- Total amount recorded as received by participant `i` in settlement `s`. -/
def receivedBy (s : Settlement) (i : ℕ) : ℤ :=
  (s.map fun p => if p.1 = i then (p.2.map Prod.snd).sum else 0).sum

/-- Total amount participant `j` pays across all creditors of settlement `s`. -/
def paidBy (s : Settlement) (j : ℕ) : ℤ :=
  (s.map fun p => ((p.2.filter fun q => q.1 == j).map Prod.snd).sum).sum

/-- A settlement exactly zeroes every balance of `c`: each creditor receives
exactly its balance and each debtor pays exactly the absolute value of its
balance. -/
def settles (c : List ℤ) (s : Settlement) : Prop :=
  ∀ v ∈ Finset.range c.length,
    (0 < c.getD v 0 → receivedBy s v = c.getD v 0) ∧
    (c.getD v 0 < 0 → paidBy s v = -(c.getD v 0))

instance (c : List ℤ) (s : Settlement) : Decidable (settles c s) := by
  unfold settles; infer_instance

/-- A settlement the OR-tools backend can emit for ledger `c`: the
extraction of some feasible flow. -/
def orOutcome (c : List ℤ) (s : Settlement) : Prop :=
  ∃ f, orFeasible c f ∧ s = find_settlement_or c f

/-- A settlement the networkx backend can emit for ledger `c`: the
extraction of some maximum flow. -/
def nxOutcome (c : List ℤ) (s : Settlement) : Prop :=
  ∃ f, nxMaxFlow c f ∧ s = find_settlement_nx c f

/-- Total credit among participants of index below `k`. -/
def cpre (c : List ℤ) (k : ℕ) : ℤ :=
  ∑ v in Finset.range k, if 0 < c.getD v 0 then c.getD v 0 else 0

/-- Total debt among participants of index below `k`. -/
def dpre (c : List ℤ) (k : ℕ) : ℤ :=
  ∑ v in Finset.range k, if c.getD v 0 < 0 then -(c.getD v 0) else 0

/-- Total credit of the ledger. -/
def posSum (c : List ℤ) : ℤ := cpre c c.length

/-- Total debt of the ledger. -/
def negSum (c : List ℤ) : ℤ := dpre c c.length

/-- Clamp `x` into the interval `[a, b]`. -/
def clampTo (a b x : ℤ) : ℤ := min b (max a x)

/-- The proportional settlement flow from creditor `i` to debtor `j`: the
overlap of their intervals on the common amount line.  It witnesses that on
a balanced ledger a feasible flow always exists under the §4.1 capacities
(the spec's "trivial proportional settlement"). -/
def gflow (c : List ℤ) (i j : ℕ) : ℤ :=
  if 0 < c.getD i 0 ∧ c.getD j 0 < 0 then
    clampTo (cpre c i) (cpre c i + c.getD i 0) (dpre c j + -(c.getD j 0))
      - clampTo (cpre c i) (cpre c i + c.getD i 0) (dpre c j)
  else 0

/-- The proportional flow in the networkx formulation: saturated source and
sink edges, `gflow` on the player-player edges (transposed, since nx edges
run debtor → creditor). -/
def gnx (c : List ℤ) (u v : ℕ) : ℤ :=
  if u = c.length ∧ v < c.length ∧ c.getD v 0 < 0 then -(c.getD v 0)
  else if v = c.length + 1 ∧ u < c.length ∧ 0 < c.getD u 0 then c.getD u 0
  else if u < c.length ∧ v < c.length ∧ c.getD u 0 < 0 ∧ 0 < c.getD v 0 then gflow c v u
  else 0

/-- Modelled from the spec: `random.randint(-10**9, 10**9)` (Python stdlib,
external to the repository) draws one integer uniformly from the symmetric
range; it is modelled as a function of one raw draw `r` of the seeded
stream, reduced into the `2 * 10^9 + 1` values of the range.  `edge_weight`
(lines 36-38) makes exactly one such call. -/
def edge_weight (r : ℤ) : ℤ := -1000000000 + r % 2000000001

/-- Number of candidate edges of the payment graph of `c`. -/
def numArcs (c : List ℤ) : ℕ := (orArcs c).length

/-- The stream positions whose draws a trial of the pooled run consumes.
A trial is identified by the pair `(worker, k)`: the worker process that
executes it and its index among that worker's solves.  Line 10
(`random.seed(123)`) fixes the generator state at module import and the
parent draws nothing before the pool is created, so every worker process
starts from the same generator state (inherited on fork, re-created by the
module re-import on spawn) — the spec's §9 "single seeded random generator
... shared across worker processes".  Within one worker only `edge_weight`
consumes the stream, once per arc per solve (lines 50-54), so the worker's
`k`-th solve draws positions `[k * numArcs c, (k+1) * numArcs c)` of the
common stream — independent of which worker it is and of the trial's
global index. -/
def pooledDraws (c : List ℤ) (t : ℕ × ℕ) : List ℕ :=
  (List.range (numArcs c)).map fun e => t.2 * numArcs c + e

/-- The cost values the trial `t = (worker, k)` draws: `edge_weight` of the
common seeded stream `rng` at the positions of `pooledDraws`. -/
def pooledCosts (c : List ℤ) (rng : ℕ → ℤ) (t : ℕ × ℕ) : List ℤ :=
  (pooledDraws c t).map fun p => edge_weight (rng p)

/-- All payment mass sits on built (creditor, debtor) arcs with positive
amounts.  Every flow either solver can return has this property. -/
def vanish (c : List ℤ) (m : ℕ → ℕ → ℤ) : Prop :=
  ∀ i < c.length, ∀ j < c.length,
    ¬(0 < c.getD i 0 ∧ c.getD j 0 < 0 ∧ 0 < m i j) → m i j = 0

/-- The unique maximum flow of the networkx graph of the malformed ledger
`[-100, 50]`: source (node 2) sends 50 to debtor 0, debtor 0 sends 50 to
creditor 1, creditor 1 sends 50 to the sink (node 3). -/
def nxPartialFlow : ℕ → ℕ → ℤ := fun u v =>
  if u = 2 ∧ v = 0 then 50
  else if u = 0 ∧ v = 1 then 50
  else if u = 1 ∧ v = 3 then 50
  else 0

/-! Helper lemmas: sums over `List.range`-built structures. -/

lemma sum_filterMap_elim {α : Type} (h : ℕ → Option α) (F : α → ℤ) (n : ℕ) :
    (((List.range n).filterMap h).map F).sum = ∑ i in Finset.range n, ((h i).elim 0 F) := by
  induction n with
  | zero => simp
  | succ k ih =>
      rw [List.range_succ, List.filterMap_append, List.map_append, List.sum_append,
        Finset.sum_range_succ, ← ih]
      cases hk : h k <;> simp [hk]

lemma list_sum_eq_range_sum (c : List ℤ) :
    c.sum = ∑ i in Finset.range c.length, c.getD i 0 := by
  induction c with
  | nil => simp
  | cons a t ih =>
      simp [List.length_cons, Finset.sum_range_succ', ih]
      exact add_comm _ _

/-! Helper lemmas: the clamp function. -/

lemma clampTo_mono {a b s e : ℤ} (h : s ≤ e) : clampTo a b s ≤ clampTo a b e := by
  simp only [clampTo, min_def, max_def]; split_ifs <;> omega

lemma clampTo_sub_le {a b s e : ℤ} (h : s ≤ e) :
    clampTo a b e - clampTo a b s ≤ e - s := by
  simp only [clampTo, min_def, max_def]; split_ifs <;> omega

lemma clampTo_sub_le_width {a b s e : ℤ} (hab : a ≤ b) :
    clampTo a b e - clampTo a b s ≤ b - a := by
  simp only [clampTo, min_def, max_def]; split_ifs <;> omega

lemma clampTo_comm {S E s e : ℤ} (h1 : S ≤ E) (h2 : s ≤ e) :
    clampTo S E e - clampTo S E s = clampTo s e E - clampTo s e S := by
  simp only [clampTo, min_def, max_def]; split_ifs <;> omega

lemma clampTo_of_ge {a b x : ℤ} (hab : a ≤ b) (h : b ≤ x) : clampTo a b x = b := by
  simp only [clampTo, min_def, max_def]; split_ifs <;> omega

lemma clampTo_of_le {a b x : ℤ} (hab : a ≤ b) (h : x ≤ a) : clampTo a b x = a := by
  simp only [clampTo, min_def, max_def]; split_ifs <;> omega

/-! Helper lemmas: credit and debt prefix sums. -/

lemma cpre_nonneg (c : List ℤ) (k : ℕ) : 0 ≤ cpre c k := by
  refine Finset.sum_nonneg fun i _ => ?_
  split <;> omega

lemma dpre_nonneg (c : List ℤ) (k : ℕ) : 0 ≤ dpre c k := by
  refine Finset.sum_nonneg fun i _ => ?_
  split <;> omega

lemma cpre_mono (c : List ℤ) {a b : ℕ} (h : a ≤ b) : cpre c a ≤ cpre c b := by
  refine Finset.sum_le_sum_of_subset_of_nonneg
    (Finset.range_subset.mpr h) fun i _ _ => ?_
  split <;> omega

lemma dpre_mono (c : List ℤ) {a b : ℕ} (h : a ≤ b) : dpre c a ≤ dpre c b := by
  refine Finset.sum_le_sum_of_subset_of_nonneg
    (Finset.range_subset.mpr h) fun i _ _ => ?_
  split <;> omega

lemma cpre_succ (c : List ℤ) (k : ℕ) :
    cpre c (k + 1) = cpre c k + (if 0 < c.getD k 0 then c.getD k 0 else 0) :=
  Finset.sum_range_succ _ k

lemma dpre_succ (c : List ℤ) (k : ℕ) :
    dpre c (k + 1) = dpre c k + (if c.getD k 0 < 0 then -(c.getD k 0) else 0) :=
  Finset.sum_range_succ _ k

lemma cpre_zero (c : List ℤ) : cpre c 0 = 0 := rfl

lemma dpre_zero (c : List ℤ) : dpre c 0 = 0 := rfl

/-
A balanced ledger has equal total credit and total debt.
-/
lemma posSum_eq_negSum {c : List ℤ} (h : c.sum = 0) : posSum c = negSum c := by
  have hs := list_sum_eq_range_sum c
  have hsplit : ∀ i ∈ Finset.range c.length,
      c.getD i 0 = (if 0 < c.getD i 0 then c.getD i 0 else 0)
        - (if c.getD i 0 < 0 then -(c.getD i 0) else 0) := by
    intro i _
    split <;> split <;> omega
  rw [Finset.sum_congr rfl hsplit, Finset.sum_sub_distrib] at hs
  have : posSum c - negSum c = 0 := by rw [posSum, negSum, cpre, dpre, ← hs, h]
  omega

/-! Helper lemmas: the proportional flow `gflow`. -/

lemma gflow_nonneg (c : List ℤ) (i j : ℕ) : 0 ≤ gflow c i j := by
  unfold gflow
  split
  · have : dpre c j ≤ dpre c j + -(c.getD j 0) := by omega
    have := clampTo_mono (a := cpre c i) (b := cpre c i + c.getD i 0) this
    omega
  · omega

lemma gflow_le_cap (c : List ℤ) {i j : ℕ} (hi : 0 < c.getD i 0) (hj : c.getD j 0 < 0) :
    gflow c i j ≤ orCap c i j := by
  rw [gflow, if_pos ⟨hi, hj⟩, orCap]
  have h1 : clampTo (cpre c i) (cpre c i + c.getD i 0) (dpre c j + -(c.getD j 0))
      - clampTo (cpre c i) (cpre c i + c.getD i 0) (dpre c j)
      ≤ (cpre c i + c.getD i 0) - cpre c i := clampTo_sub_le_width (by omega)
  have h2 : clampTo (cpre c i) (cpre c i + c.getD i 0) (dpre c j + -(c.getD j 0))
      - clampTo (cpre c i) (cpre c i + c.getD i 0) (dpre c j)
      ≤ (dpre c j + -(c.getD j 0)) - dpre c j := clampTo_sub_le (by omega)
  omega

lemma gflow_zero_of_not_cred (c : List ℤ) {i : ℕ} (hi : ¬ 0 < c.getD i 0) (j : ℕ) :
    gflow c i j = 0 := by
  rw [gflow, if_neg]; tauto

lemma gflow_zero_of_not_debt (c : List ℤ) (i : ℕ) {j : ℕ} (hj : ¬ c.getD j 0 < 0) :
    gflow c i j = 0 := by
  rw [gflow, if_neg]; tauto

/-
Creditor-side telescoping form of `gflow`.
-/
lemma gflow_eq_sub (c : List ℤ) {i : ℕ} (hi : 0 < c.getD i 0) (j : ℕ) :
    gflow c i j
      = clampTo (cpre c i) (cpre c i + c.getD i 0) (dpre c (j + 1))
        - clampTo (cpre c i) (cpre c i + c.getD i 0) (dpre c j) := by
  rw [dpre_succ]
  by_cases hj : c.getD j 0 < 0
  · rw [if_pos hj, gflow, if_pos ⟨hi, hj⟩]
  · rw [if_neg hj, add_zero, sub_self]
    exact gflow_zero_of_not_debt c i hj

lemma gflow_row_sum {c : List ℤ} (hbal : posSum c = negSum c) {i : ℕ}
    (hi : i < c.length) (hci : 0 < c.getD i 0) :
    ∑ j in Finset.range c.length, gflow c i j = c.getD i 0 := by
  have hrw : ∀ j ∈ Finset.range c.length, gflow c i j
      = clampTo (cpre c i) (cpre c i + c.getD i 0) (dpre c (j + 1))
        - clampTo (cpre c i) (cpre c i + c.getD i 0) (dpre c j) :=
    fun j _ => gflow_eq_sub c hci j
  rw [Finset.sum_congr rfl hrw,
    Finset.sum_range_sub (fun j => clampTo (cpre c i) (cpre c i + c.getD i 0) (dpre c j))]
  have hE : cpre c i + c.getD i 0 = cpre c (i + 1) := by
    rw [cpre_succ, if_pos hci]
  have hEle : cpre c i + c.getD i 0 ≤ dpre c c.length := by
    have hb : cpre c c.length = dpre c c.length := hbal
    rw [hE, ← hb]; exact cpre_mono c hi
  rw [dpre_zero, clampTo_of_ge (by omega) hEle,
    clampTo_of_le (by omega) (cpre_nonneg c i)]
  omega

/-
Debtor-side telescoping form of `gflow`.
-/
lemma gflow_eq_sub_col (c : List ℤ) {j : ℕ} (hj : c.getD j 0 < 0) (i : ℕ) :
    gflow c i j
      = clampTo (dpre c j) (dpre c j + -(c.getD j 0)) (cpre c (i + 1))
        - clampTo (dpre c j) (dpre c j + -(c.getD j 0)) (cpre c i) := by
  rw [cpre_succ]
  by_cases hi : 0 < c.getD i 0
  · rw [if_pos hi, gflow, if_pos ⟨hi, hj⟩]
    exact clampTo_comm (by omega) (by omega)
  · rw [if_neg hi, add_zero, sub_self]
    exact gflow_zero_of_not_cred c hi j

lemma gflow_col_sum {c : List ℤ} (hbal : posSum c = negSum c) {j : ℕ}
    (hj : j < c.length) (hcj : c.getD j 0 < 0) :
    ∑ i in Finset.range c.length, gflow c i j = -(c.getD j 0) := by
  have hrw : ∀ i ∈ Finset.range c.length, gflow c i j
      = clampTo (dpre c j) (dpre c j + -(c.getD j 0)) (cpre c (i + 1))
        - clampTo (dpre c j) (dpre c j + -(c.getD j 0)) (cpre c i) :=
    fun i _ => gflow_eq_sub_col c hcj i
  rw [Finset.sum_congr rfl hrw,
    Finset.sum_range_sub (fun i => clampTo (dpre c j) (dpre c j + -(c.getD j 0)) (cpre c i))]
  have hE : dpre c j + -(c.getD j 0) = dpre c (j + 1) := by
    rw [dpre_succ, if_pos hcj]
  have hEle : dpre c j + -(c.getD j 0) ≤ cpre c c.length := by
    have hb : cpre c c.length = dpre c c.length := hbal
    rw [hE, hb]; exact dpre_mono c hj
  rw [cpre_zero, clampTo_of_ge (by omega) hEle,
    clampTo_of_le (by omega) (dpre_nonneg c j)]
  omega

lemma orPays_sum {c : List ℤ} {m : ℕ → ℕ → ℤ} (hvan : vanish c m) {i : ℕ}
    (hi : i < c.length) :
    ((orPays c m i).map Prod.snd).sum = ∑ j in Finset.range c.length, m i j := by
  rw [orPays, sum_filterMap_elim]
  refine Finset.sum_congr rfl fun j hj => ?_
  rw [Finset.mem_range] at hj
  by_cases hP : c.getD j 0 < 0 ∧ 0 < m i j
  · rw [if_pos hP]; rfl
  · rw [if_neg hP, Option.elim]
    exact (hvan i hi j hj fun hx => hP ⟨hx.2.1, hx.2.2⟩).symm

lemma orPays_nil_zero {c : List ℤ} {m : ℕ → ℕ → ℤ} (hvan : vanish c m) {i : ℕ}
    (hi : i < c.length) (hnil : orPays c m i = []) :
    ∀ j < c.length, m i j = 0 := by
  intro j hj
  rw [orPays, List.filterMap_eq_nil_iff] at hnil
  have := hnil j (List.mem_range.mpr hj)
  by_cases hP : c.getD j 0 < 0 ∧ 0 < m i j
  · rw [if_pos hP] at this; exact absurd this (by simp)
  · exact hvan i hi j hj fun hx => hP ⟨hx.2.1, hx.2.2⟩

lemma receivedBy_extract {c : List ℤ} {m : ℕ → ℕ → ℤ} (hvan : vanish c m) {v : ℕ}
    (hv : v < c.length) (hcv : 0 < c.getD v 0) :
    receivedBy (find_settlement_or c m) v = ∑ j in Finset.range c.length, m v j := by
  rw [receivedBy, find_settlement_or, sum_filterMap_elim]
  have hterm : ∀ i ∈ Finset.range c.length,
      ((if 0 < c.getD i 0 ∧ orPays c m i ≠ [] then some (i, orPays c m i) else none).elim 0
        fun p => if p.1 = v then (p.2.map Prod.snd).sum else 0)
      = if i = v then
          (if 0 < c.getD i 0 ∧ orPays c m i ≠ [] then ((orPays c m i).map Prod.snd).sum else 0)
        else 0 := by
    intro i _
    by_cases hiv : i = v
    · subst hiv
      by_cases hQ : 0 < c.getD i 0 ∧ orPays c m i ≠ []
      · obtain ⟨h1, h2⟩ := hQ
        rw [List.getD_eq_getElem?_getD] at h1
        simp [h1, h2]
      · simp only [if_neg hQ]
        simp
    · by_cases hQ : 0 < c.getD i 0 ∧ orPays c m i ≠ []
      · obtain ⟨h1, h2⟩ := hQ
        rw [List.getD_eq_getElem?_getD] at h1
        simp [h1, h2, hiv]
      · simp only [if_neg hQ]
        simp [hiv]
  rw [Finset.sum_congr rfl hterm, Finset.sum_ite_eq' (Finset.range c.length) v,
    if_pos (Finset.mem_range.mpr hv)]
  by_cases hQ : 0 < c.getD v 0 ∧ orPays c m v ≠ []
  · rw [if_pos hQ]; exact orPays_sum hvan hv
  · rw [if_neg hQ]
    have hnil : orPays c m v = [] := by tauto
    exact (Finset.sum_eq_zero fun j hj =>
      orPays_nil_zero hvan hv hnil j (Finset.mem_range.mp hj)).symm

lemma orPays_filter_sum {c : List ℤ} {m : ℕ → ℕ → ℤ} (hvan : vanish c m) {i j : ℕ}
    (hi : i < c.length) (hj : j < c.length) :
    (((orPays c m i).filter fun q => q.1 == j).map Prod.snd).sum = m i j := by
  rw [orPays, List.filter_filterMap, sum_filterMap_elim]
  have hterm : ∀ x ∈ Finset.range c.length,
      (((if c.getD x 0 < 0 ∧ 0 < m i x then some (x, m i x) else none).filter
          fun q => q.1 == j).elim 0 Prod.snd)
      = if x = j then (if c.getD x 0 < 0 ∧ 0 < m i x then m i x else 0) else 0 := by
    intro x _
    by_cases hxj : x = j
    · subst hxj
      by_cases hP : c.getD x 0 < 0 ∧ 0 < m i x
      · obtain ⟨h1, h2⟩ := hP
        rw [List.getD_eq_getElem?_getD] at h1
        simp [h1, h2, Option.filter]
      · simp only [if_neg hP]
        simp
    · by_cases hP : c.getD x 0 < 0 ∧ 0 < m i x
      · obtain ⟨h1, h2⟩ := hP
        rw [List.getD_eq_getElem?_getD] at h1
        simp [h1, h2, hxj, Option.filter]
      · simp only [if_neg hP]
        simp [hxj]
  rw [Finset.sum_congr rfl hterm, Finset.sum_ite_eq' (Finset.range c.length) j,
    if_pos (Finset.mem_range.mpr hj)]
  by_cases hP : c.getD j 0 < 0 ∧ 0 < m i j
  · rw [if_pos hP]
  · rw [if_neg hP]
    exact (hvan i hi j hj fun hx => hP ⟨hx.2.1, hx.2.2⟩).symm

lemma paidBy_extract {c : List ℤ} {m : ℕ → ℕ → ℤ} (hvan : vanish c m) {j : ℕ}
    (hj : j < c.length) :
    paidBy (find_settlement_or c m) j = ∑ i in Finset.range c.length, m i j := by
  rw [paidBy, find_settlement_or, sum_filterMap_elim]
  refine Finset.sum_congr rfl fun i hi => ?_
  rw [Finset.mem_range] at hi
  by_cases hQ : 0 < c.getD i 0 ∧ orPays c m i ≠ []
  · rw [if_pos hQ, Option.elim]
    exact orPays_filter_sum hvan hi hj
  · rw [if_neg hQ, Option.elim]
    rcases Decidable.not_and_iff_or_not.mp hQ with h1 | h2
    · exact (hvan i hi j hj fun hx => h1 hx.1).symm
    · have hnil : orPays c m i = [] := by
        by_contra hne; exact h2 hne
      exact (orPays_nil_zero hvan hi hnil j hj).symm

/-
The extractor output zeroes every balance as soon as the payment matrix has
row sums equal to the creditors' balances and column sums equal to the
debtors' balance magnitudes.
-/
lemma extract_settles {c : List ℤ} {m : ℕ → ℕ → ℤ} (hvan : vanish c m)
    (hrow : ∀ v < c.length, 0 < c.getD v 0 →
      ∑ j in Finset.range c.length, m v j = c.getD v 0)
    (hcol : ∀ v < c.length, c.getD v 0 < 0 →
      ∑ i in Finset.range c.length, m i v = -(c.getD v 0)) :
    settles c (find_settlement_or c m) := by
  intro v hv
  rw [Finset.mem_range] at hv
  constructor
  · intro hcv
    rw [receivedBy_extract hvan hv hcv]
    exact hrow v hv hcv
  · intro hcv
    rw [paidBy_extract hvan hv]
    exact hcol v hv hcv

/-
Structure of extracted settlements: keys are creditors, payers are debtors,
amounts are strictly positive.
-/
lemma extract_key_mem {c : List ℤ} {m : ℕ → ℕ → ℤ} {i : ℕ} {pays : List (ℕ × ℤ)}
    (hmem : (i, pays) ∈ find_settlement_or c m) :
    i < c.length ∧ 0 < c.getD i 0 ∧ pays = orPays c m i ∧ pays ≠ [] := by
  rw [find_settlement_or, List.mem_filterMap] at hmem
  obtain ⟨x, hx, hsome⟩ := hmem
  rw [List.mem_range] at hx
  by_cases hQ : 0 < c.getD x 0 ∧ orPays c m x ≠ []
  · rw [if_pos hQ] at hsome
    obtain ⟨rfl, rfl⟩ : x = i ∧ orPays c m x = pays := by
      constructor <;> [exact congrArg Prod.fst (Option.some.inj hsome);
        exact congrArg Prod.snd (Option.some.inj hsome)]
    exact ⟨hx, hQ.1, rfl, hQ.2⟩
  · rw [if_neg hQ] at hsome
    exact absurd hsome (by simp)

lemma orPays_pair_mem {c : List ℤ} {m : ℕ → ℕ → ℤ} {i : ℕ} {q : ℕ × ℤ}
    (hq : q ∈ orPays c m i) :
    q.1 < c.length ∧ c.getD q.1 0 < 0 ∧ 0 < q.2 ∧ q.2 = m i q.1 := by
  rw [orPays, List.mem_filterMap] at hq
  obtain ⟨j, hjr, hsome⟩ := hq
  rw [List.mem_range] at hjr
  by_cases hP : c.getD j 0 < 0 ∧ 0 < m i j
  · rw [if_pos hP] at hsome
    obtain rfl : (j, m i j) = q := Option.some.inj hsome
    exact ⟨hjr, hP.1, hP.2, rfl⟩
  · rw [if_neg hP] at hsome
    exact absurd hsome (by simp)

/-! OR-tools backend: consequences of feasibility. -/

lemma orFeasible_vanish {c : List ℤ} {f : ℕ → ℕ → ℤ} (hf : orFeasible c f) :
    vanish c f := by
  intro i hi j hj hneg
  have hcl := hf.1 i (Finset.mem_range.mpr hi) j (Finset.mem_range.mpr hj)
  by_cases he : 0 < c.getD i 0 ∧ c.getD j 0 < 0
  · rw [if_pos he] at hcl
    by_cases hflow : 0 < f i j
    · exact absurd ⟨he.1, he.2, hflow⟩ hneg
    · omega
  · rwa [if_neg he] at hcl

lemma orFeasible_row {c : List ℤ} {f : ℕ → ℕ → ℤ} (hf : orFeasible c f) {v : ℕ}
    (hv : v < c.length) (hcv : 0 < c.getD v 0) :
    ∑ j in Finset.range c.length, f v j = c.getD v 0 := by
  have hnet := hf.2 v (Finset.mem_range.mpr hv)
  have hcol : ∑ i in Finset.range c.length, f i v = 0 :=
    Finset.sum_eq_zero fun i hi => by
      have hcl := hf.1 i hi v (Finset.mem_range.mpr hv)
      rw [if_neg (by omega : ¬(0 < c.getD i 0 ∧ c.getD v 0 < 0))] at hcl
      exact hcl
  rw [orNetOut, hcol] at hnet
  omega

lemma orFeasible_col {c : List ℤ} {f : ℕ → ℕ → ℤ} (hf : orFeasible c f) {v : ℕ}
    (hv : v < c.length) (hcv : c.getD v 0 < 0) :
    ∑ i in Finset.range c.length, f i v = -(c.getD v 0) := by
  have hnet := hf.2 v (Finset.mem_range.mpr hv)
  have hrow : ∑ j in Finset.range c.length, f v j = 0 :=
    Finset.sum_eq_zero fun j hj => by
      have hcl := hf.1 v (Finset.mem_range.mpr hv) j hj
      rw [if_neg (by omega : ¬(0 < c.getD v 0 ∧ c.getD j 0 < 0))] at hcl
      exact hcl
  rw [orNetOut, hrow] at hnet
  omega

/-
A feasible flow for the OR-tools network exists only on balanced ledgers:
on a malformed ledger `Solve()` cannot return `OPTIMAL` and the `assert`
at line 60 raises on every trial.
-/
lemma orFeasible_sum_zero {c : List ℤ} {f : ℕ → ℕ → ℤ} (hf : orFeasible c f) :
    c.sum = 0 := by
  have hswap :
      ∑ v in Finset.range c.length, orNetOut c f v = 0 := by
    unfold orNetOut
    rw [Finset.sum_sub_distrib, Finset.sum_comm]
    omega
  have h : ∑ v in Finset.range c.length, orNetOut c f v
      = ∑ v in Finset.range c.length, c.getD v 0 := Finset.sum_congr rfl hf.2
  rw [hswap, ← list_sum_eq_range_sum] at h
  omega

/-
The settlement extracted from any feasible OR-tools flow fully settles the
ledger: no partial settlement can be emitted.
-/
lemma or_settles {c : List ℤ} {f : ℕ → ℕ → ℤ} (hf : orFeasible c f) :
    settles c (find_settlement_or c f) :=
  extract_settles (orFeasible_vanish hf)
    (fun _ hv hcv => orFeasible_row hf hv hcv)
    (fun _ hv hcv => orFeasible_col hf hv hcv)

/-- The networkx extractor is the generic extractor on the transposed flow. -/
lemma nx_as_or (c : List ℤ) (f : ℕ → ℕ → ℤ) :
    find_settlement_nx c f = find_settlement_or c (fun i j => f j i) := rfl

/-! Networkx backend: capacity case analysis. -/

lemma nxCap_from_sink (c : List ℤ) (v : ℕ) : nxCap c (c.length + 1) v = none := by
  rw [nxCap, if_neg (by omega), if_neg (by omega), if_neg (by omega)]

lemma nxCap_to_source (c : List ℤ) (u : ℕ) : nxCap c u c.length = none := by
  rw [nxCap, if_neg (by omega), if_neg (by omega), if_neg (by omega)]

lemma nxCap_source_sink (c : List ℤ) : nxCap c c.length (c.length + 1) = none := by
  rw [nxCap, if_neg (by omega), if_neg (by omega), if_neg (by omega)]

lemma nxCap_player_none {c : List ℤ} {u v : ℕ} (hu : u < c.length) (hv : v < c.length)
    (h : ¬(c.getD u 0 < 0 ∧ 0 < c.getD v 0)) : nxCap c u v = none := by
  rw [nxCap, if_neg (by omega), if_neg (by omega), if_neg (by tauto)]

lemma nxCap_source_cred {c : List ℤ} {v : ℕ} (hv : v < c.length)
    (h : ¬ c.getD v 0 < 0) : nxCap c c.length v = none := by
  rw [nxCap, if_neg (by tauto), if_neg (by omega), if_neg (by omega)]

lemma nxCap_player_sink_nonpos {c : List ℤ} {u : ℕ} (hu : u < c.length)
    (h : ¬ 0 < c.getD u 0) : nxCap c u (c.length + 1) = none := by
  rw [nxCap, if_neg (by omega), if_neg (by tauto), if_neg (by omega)]

lemma nxCap_source_debt {c : List ℤ} {v : ℕ} (hv : v < c.length)
    (h : c.getD v 0 < 0) : nxCap c c.length v = some (-(c.getD v 0)) := by
  rw [nxCap, if_pos ⟨rfl, hv, h⟩]

lemma nxCap_cred_sink {c : List ℤ} {u : ℕ} (hu : u < c.length)
    (h : 0 < c.getD u 0) : nxCap c u (c.length + 1) = some (c.getD u 0) := by
  rw [nxCap, if_neg (by omega), if_pos ⟨rfl, hu, h⟩]

lemma nxCap_player_edge {c : List ℤ} {u v : ℕ} (hu : u < c.length) (hv : v < c.length)
    (h1 : c.getD u 0 < 0) (h2 : 0 < c.getD v 0) :
    nxCap c u v = some (min (-(c.getD u 0)) (c.getD v 0)) := by
  rw [nxCap, if_neg (by omega), if_neg (by omega), if_pos ⟨hu, hv, h1, h2⟩]

/-! Networkx backend: the proportional flow `gnx` pointwise. -/

lemma gnx_player {c : List ℤ} {u v : ℕ} (hu : u < c.length) (hv : v < c.length) :
    gnx c u v = if c.getD u 0 < 0 ∧ 0 < c.getD v 0 then gflow c v u else 0 := by
  rw [gnx, if_neg (by omega), if_neg (by omega)]
  by_cases h : c.getD u 0 < 0 ∧ 0 < c.getD v 0
  · rw [if_pos ⟨hu, hv, h.1, h.2⟩, if_pos h]
  · rw [if_neg (by tauto), if_neg h]

lemma gnx_src {c : List ℤ} {v : ℕ} (hv : v < c.length) :
    gnx c c.length v = if c.getD v 0 < 0 then -(c.getD v 0) else 0 := by
  rw [gnx]
  by_cases h : c.getD v 0 < 0
  · rw [if_pos ⟨rfl, hv, h⟩, if_pos h]
  · rw [if_neg (by tauto), if_neg (by omega), if_neg (by omega), if_neg h]

lemma gnx_sink_col {c : List ℤ} {u : ℕ} (hu : u < c.length) :
    gnx c u (c.length + 1) = if 0 < c.getD u 0 then c.getD u 0 else 0 := by
  rw [gnx, if_neg (by omega)]
  by_cases h : 0 < c.getD u 0
  · rw [if_pos ⟨rfl, hu, h⟩, if_pos h]
  · rw [if_neg (by tauto), if_neg (by omega), if_neg h]

lemma gnx_from_sink (c : List ℤ) (v : ℕ) : gnx c (c.length + 1) v = 0 := by
  rw [gnx, if_neg (by omega), if_neg (by omega), if_neg (by omega)]

lemma gnx_to_source (c : List ℤ) (u : ℕ) : gnx c u c.length = 0 := by
  rw [gnx, if_neg (by omega), if_neg (by omega), if_neg (by omega)]

lemma gnx_source_sink (c : List ℤ) : gnx c c.length (c.length + 1) = 0 := by
  rw [gnx, if_neg (by omega), if_neg (by omega), if_neg (by omega)]

/-! Networkx backend: sums. -/

lemma sum_range_add_two (g : ℕ → ℤ) (n : ℕ) :
    ∑ u in Finset.range (n + 2), g u = (∑ u in Finset.range n, g u) + g n + g (n + 1) := by
  rw [Finset.sum_range_succ, Finset.sum_range_succ]

lemma nxValid_bounds {c : List ℤ} {f : ℕ → ℕ → ℤ} (hval : nxValid c f) {u v : ℕ}
    (hu : u < c.length + 2) (hv : v < c.length + 2) :
    0 ≤ f u v ∧ f u v ≤ (nxCap c u v).getD 0 :=
  hval.1 u (Finset.mem_range.mpr hu) v (Finset.mem_range.mpr hv)

lemma nxValid_zero {c : List ℤ} {f : ℕ → ℕ → ℤ} (hval : nxValid c f) {u v : ℕ}
    (hu : u < c.length + 2) (hv : v < c.length + 2)
    (hcap : nxCap c u v = none) : f u v = 0 := by
  have h := nxValid_bounds hval hu hv
  rw [hcap] at h
  exact le_antisymm h.2 h.1

/-
On a balanced ledger the proportional flow is a valid flow of the networkx
graph, of value equal to the total debt.
-/
lemma gnx_valid {c : List ℤ} (hsum : c.sum = 0) : nxValid c (gnx c) := by
  have hbal := posSum_eq_negSum hsum
  constructor
  · intro u hu v hv
    rw [Finset.mem_range] at hu hv
    by_cases h1 : u = c.length ∧ v < c.length ∧ c.getD v 0 < 0
    · obtain ⟨rfl, hv2, h3⟩ := h1
      rw [gnx_src hv2, if_pos h3, nxCap_source_debt hv2 h3, Option.getD_some]
      omega
    · by_cases h2 : v = c.length + 1 ∧ u < c.length ∧ 0 < c.getD u 0
      · obtain ⟨rfl, hu2, h3⟩ := h2
        rw [gnx_sink_col hu2, if_pos h3, nxCap_cred_sink hu2 h3, Option.getD_some]
        omega
      · by_cases h3 : u < c.length ∧ v < c.length ∧ c.getD u 0 < 0 ∧ 0 < c.getD v 0
        · obtain ⟨hu2, hv2, hdu, hcv⟩ := h3
          rw [gnx_player hu2 hv2, if_pos ⟨hdu, hcv⟩,
            nxCap_player_edge hu2 hv2 hdu hcv, Option.getD_some]
          have hle := gflow_le_cap c hcv hdu
          rw [orCap] at hle
          have ha := le_trans hle (min_le_left _ _)
          have hb := le_trans hle (min_le_right _ _)
          exact ⟨gflow_nonneg c v u, le_min hb ha⟩
        · have hzero : gnx c u v = 0 := by
            rw [gnx, if_neg h1, if_neg h2, if_neg h3]
          rw [hzero]
          refine ⟨le_refl 0, ?_⟩
          have hcap : nxCap c u v = none := by
            rw [nxCap, if_neg h1, if_neg h2, if_neg h3]
          rw [hcap]
          exact le_refl 0
  · intro v hv
    rw [Finset.mem_range] at hv
    rw [sum_range_add_two, sum_range_add_two (g := fun w => gnx c v w),
      gnx_from_sink, gnx_to_source, gnx_src hv, gnx_sink_col hv]
    have hin : ∀ u ∈ Finset.range c.length,
        gnx c u v = if c.getD u 0 < 0 ∧ 0 < c.getD v 0 then gflow c v u else 0 :=
      fun u hu => gnx_player (Finset.mem_range.mp hu) hv
    have hout : ∀ w ∈ Finset.range c.length,
        gnx c v w = if c.getD v 0 < 0 ∧ 0 < c.getD w 0 then gflow c w v else 0 :=
      fun w hw => gnx_player hv (Finset.mem_range.mp hw)
    rw [Finset.sum_congr rfl hin, Finset.sum_congr rfl hout]
    rcases lt_trichotomy (c.getD v 0) 0 with hneg | hzero | hpos
    · have hsin : ∑ u in Finset.range c.length,
          (if c.getD u 0 < 0 ∧ 0 < c.getD v 0 then gflow c v u else 0) = 0 :=
        Finset.sum_eq_zero fun u _ => if_neg (by omega)
      have hsout : ∑ w in Finset.range c.length,
          (if c.getD v 0 < 0 ∧ 0 < c.getD w 0 then gflow c w v else 0)
          = ∑ w in Finset.range c.length, gflow c w v := by
        refine Finset.sum_congr rfl fun w _ => ?_
        by_cases hw : 0 < c.getD w 0
        · rw [if_pos ⟨hneg, hw⟩]
        · rw [if_neg (by tauto), gflow_zero_of_not_cred c hw v]
      rw [hsin, hsout, gflow_col_sum hbal hv hneg, if_pos hneg, if_neg (by omega)]
      omega
    · have hsin : ∑ u in Finset.range c.length,
          (if c.getD u 0 < 0 ∧ 0 < c.getD v 0 then gflow c v u else 0) = 0 :=
        Finset.sum_eq_zero fun u _ => if_neg (by omega)
      have hsout : ∑ w in Finset.range c.length,
          (if c.getD v 0 < 0 ∧ 0 < c.getD w 0 then gflow c w v else 0) = 0 :=
        Finset.sum_eq_zero fun w _ => if_neg (by omega)
      rw [hsin, hsout, if_neg (by omega), if_neg (by omega)]
    · have hsin : ∑ u in Finset.range c.length,
          (if c.getD u 0 < 0 ∧ 0 < c.getD v 0 then gflow c v u else 0)
          = ∑ u in Finset.range c.length, gflow c v u := by
        refine Finset.sum_congr rfl fun u _ => ?_
        by_cases hu : c.getD u 0 < 0
        · rw [if_pos ⟨hu, hpos⟩]
        · rw [if_neg (by tauto), gflow_zero_of_not_debt c v hu]
      have hsout : ∑ w in Finset.range c.length,
          (if c.getD v 0 < 0 ∧ 0 < c.getD w 0 then gflow c w v else 0) = 0 :=
        Finset.sum_eq_zero fun w _ => if_neg (by omega)
      rw [hsin, hsout, gflow_row_sum hbal hv hpos, if_neg (by omega), if_pos hpos]
      omega

lemma gnx_value (c : List ℤ) : nxValue c (gnx c) = negSum c := by
  rw [nxValue, sum_range_add_two, gnx_to_source, gnx_source_sink]
  have h : ∀ v ∈ Finset.range c.length,
      gnx c c.length v = if c.getD v 0 < 0 then -(c.getD v 0) else 0 :=
    fun v hv => gnx_src (Finset.mem_range.mp hv)
  rw [Finset.sum_congr rfl h]
  rw [negSum, dpre]
  omega

/-
Cut bound: no valid flow can carry more than the total debt out of the
source.
-/
lemma nxValue_le_negSum {c : List ℤ} {f : ℕ → ℕ → ℤ} (hval : nxValid c f) :
    nxValue c f ≤ negSum c := by
  rw [nxValue, sum_range_add_two]
  have hnn : f c.length c.length = 0 :=
    nxValid_zero hval (by omega) (by omega) (nxCap_to_source c _)
  have hns : f c.length (c.length + 1) = 0 :=
    nxValid_zero hval (by omega) (by omega) (nxCap_source_sink c)
  have hb : ∀ v ∈ Finset.range c.length,
      f c.length v ≤ (if c.getD v 0 < 0 then -(c.getD v 0) else 0) := by
    intro v hv
    rw [Finset.mem_range] at hv
    by_cases h : c.getD v 0 < 0
    · have := nxValid_bounds hval (u := c.length) (by omega) (v := v) (by omega)
      rw [nxCap_source_debt hv h, Option.getD_some] at this
      rw [if_pos h]
      exact this.2
    · rw [if_neg h, nxValid_zero hval (by omega) (by omega) (nxCap_source_cred hv h)]
  have := Finset.sum_le_sum hb
  rw [negSum, dpre]
  omega

lemma sum_bounds_eq {s : Finset ℕ} {x b : ℕ → ℤ} (h : ∀ i ∈ s, x i ≤ b i)
    (he : ∑ i in s, x i = ∑ i in s, b i) : ∀ i ∈ s, x i = b i := by
  have h0 : ∑ i in s, (b i - x i) = 0 := by
    rw [Finset.sum_sub_distrib]; omega
  intro i hi
  have := (Finset.sum_eq_zero_iff_of_nonneg fun j hj => by have := h j hj; omega).mp h0 i hi
  omega

/-! Networkx backend: consequences of flow maximality on balanced ledgers. -/

lemma nx_source_eq_sink {c : List ℤ} {f : ℕ → ℕ → ℤ} (hval : nxValid c f) :
    ∑ v in Finset.range c.length, f c.length v
      = ∑ v in Finset.range c.length, f v (c.length + 1) := by
  have hcons := Finset.sum_congr rfl hval.2
  have hl : ∀ v ∈ Finset.range c.length,
      ∑ u in Finset.range (c.length + 2), f u v
        = (∑ u in Finset.range c.length, f u v) + f c.length v + f (c.length + 1) v :=
    fun v _ => sum_range_add_two _ _
  have hr : ∀ v ∈ Finset.range c.length,
      ∑ w in Finset.range (c.length + 2), f v w
        = (∑ w in Finset.range c.length, f v w) + f v c.length + f v (c.length + 1) :=
    fun v _ => sum_range_add_two _ _
  rw [Finset.sum_congr rfl hl, Finset.sum_congr rfl hr] at hcons
  have hsinkzero : ∀ v ∈ Finset.range c.length, f (c.length + 1) v = 0 :=
    fun v hv => nxValid_zero hval (by omega)
      (by have := Finset.mem_range.mp hv; omega) (nxCap_from_sink c v)
  have hsrczero : ∀ v ∈ Finset.range c.length, f v c.length = 0 :=
    fun v hv => nxValid_zero hval
      (by have := Finset.mem_range.mp hv; omega) (by omega) (nxCap_to_source c v)
  rw [Finset.sum_add_distrib, Finset.sum_add_distrib, Finset.sum_add_distrib,
    Finset.sum_add_distrib, Finset.sum_eq_zero hsinkzero, Finset.sum_eq_zero hsrczero,
    Finset.sum_comm] at hcons
  omega

lemma maxflow_value {c : List ℤ} {f : ℕ → ℕ → ℤ} (hsum : c.sum = 0)
    (hmf : nxMaxFlow c f) : nxValue c f = negSum c := by
  refine le_antisymm (nxValue_le_negSum hmf.1) ?_
  have h := hmf.2 (gnx c) (gnx_valid hsum)
  rwa [gnx_value] at h

lemma maxflow_src_sum {c : List ℤ} {f : ℕ → ℕ → ℤ} (hsum : c.sum = 0)
    (hmf : nxMaxFlow c f) :
    ∑ v in Finset.range c.length, f c.length v = negSum c := by
  have hv := maxflow_value hsum hmf
  rw [nxValue, sum_range_add_two,
    nxValid_zero hmf.1 (by omega) (by omega) (nxCap_to_source c _),
    nxValid_zero hmf.1 (by omega) (by omega) (nxCap_source_sink c)] at hv
  omega

lemma maxflow_src_sat {c : List ℤ} {f : ℕ → ℕ → ℤ} (hsum : c.sum = 0)
    (hmf : nxMaxFlow c f) {v : ℕ} (hv : v < c.length) (hcv : c.getD v 0 < 0) :
    f c.length v = -(c.getD v 0) := by
  have hb : ∀ w ∈ Finset.range c.length,
      f c.length w ≤ (if c.getD w 0 < 0 then -(c.getD w 0) else 0) := by
    intro w hw
    rw [Finset.mem_range] at hw
    by_cases h : c.getD w 0 < 0
    · have := nxValid_bounds hmf.1 (u := c.length) (by omega) (v := w) (by omega)
      rw [nxCap_source_debt hw h, Option.getD_some] at this
      rw [if_pos h]
      exact this.2
    · rw [if_neg h,
        nxValid_zero hmf.1 (by omega) (by omega) (nxCap_source_cred hw h)]
  have heq : ∑ w in Finset.range c.length, f c.length w
      = ∑ w in Finset.range c.length, (if c.getD w 0 < 0 then -(c.getD w 0) else 0) := by
    rw [maxflow_src_sum hsum hmf]; rfl
  have := sum_bounds_eq hb heq v (Finset.mem_range.mpr hv)
  rwa [if_pos hcv] at this

lemma maxflow_sink_sat {c : List ℤ} {f : ℕ → ℕ → ℤ} (hsum : c.sum = 0)
    (hmf : nxMaxFlow c f) {v : ℕ} (hv : v < c.length) (hcv : 0 < c.getD v 0) :
    f v (c.length + 1) = c.getD v 0 := by
  have hbal := posSum_eq_negSum hsum
  have hb : ∀ w ∈ Finset.range c.length,
      f w (c.length + 1) ≤ (if 0 < c.getD w 0 then c.getD w 0 else 0) := by
    intro w hw
    rw [Finset.mem_range] at hw
    by_cases h : 0 < c.getD w 0
    · have := nxValid_bounds hmf.1 (u := w) (by omega) (v := c.length + 1) (by omega)
      rw [nxCap_cred_sink hw h, Option.getD_some] at this
      rw [if_pos h]
      exact this.2
    · rw [if_neg h,
        nxValid_zero hmf.1 (by omega) (by omega) (nxCap_player_sink_nonpos hw h)]
  have heq : ∑ w in Finset.range c.length, f w (c.length + 1)
      = ∑ w in Finset.range c.length, (if 0 < c.getD w 0 then c.getD w 0 else 0) := by
    rw [← nx_source_eq_sink hmf.1, maxflow_src_sum hsum hmf]
    have : posSum c = ∑ w in Finset.range c.length,
        (if 0 < c.getD w 0 then c.getD w 0 else 0) := rfl
    omega
  have := sum_bounds_eq hb heq v (Finset.mem_range.mpr hv)
  rwa [if_pos hcv] at this

lemma maxflow_debtor_row {c : List ℤ} {f : ℕ → ℕ → ℤ} (hsum : c.sum = 0)
    (hmf : nxMaxFlow c f) {j : ℕ} (hj : j < c.length) (hcj : c.getD j 0 < 0) :
    ∑ i in Finset.range c.length, f j i = -(c.getD j 0) := by
  have hcons := hmf.1.2 j (Finset.mem_range.mpr hj)
  rw [sum_range_add_two, sum_range_add_two (g := fun w => f j w)] at hcons
  have hin : ∑ u in Finset.range c.length, f u j = 0 :=
    Finset.sum_eq_zero fun u hu => nxValid_zero hmf.1
      (by have := Finset.mem_range.mp hu; omega) (by omega)
      (nxCap_player_none (Finset.mem_range.mp hu) hj (by omega))
  rw [hin, maxflow_src_sat hsum hmf hj hcj,
    nxValid_zero hmf.1 (by omega) (by omega) (nxCap_from_sink c j),
    nxValid_zero hmf.1 (by omega) (by omega) (nxCap_to_source c j),
    nxValid_zero hmf.1 (by omega) (by omega) (nxCap_player_sink_nonpos hj (by omega))]
    at hcons
  omega

lemma maxflow_cred_col {c : List ℤ} {f : ℕ → ℕ → ℤ} (hsum : c.sum = 0)
    (hmf : nxMaxFlow c f) {i : ℕ} (hi : i < c.length) (hci : 0 < c.getD i 0) :
    ∑ j in Finset.range c.length, f j i = c.getD i 0 := by
  have hcons := hmf.1.2 i (Finset.mem_range.mpr hi)
  rw [sum_range_add_two, sum_range_add_two (g := fun w => f i w)] at hcons
  have hout : ∑ w in Finset.range c.length, f i w = 0 :=
    Finset.sum_eq_zero fun w hw => nxValid_zero hmf.1 (by omega)
      (by have := Finset.mem_range.mp hw; omega)
      (nxCap_player_none hi (Finset.mem_range.mp hw) (by omega))
  rw [hout, maxflow_sink_sat hsum hmf hi hci,
    nxValid_zero hmf.1 (by omega) (by omega) (nxCap_source_cred hi (by omega)),
    nxValid_zero hmf.1 (by omega) (by omega) (nxCap_from_sink c i),
    nxValid_zero hmf.1 (by omega) (by omega) (nxCap_to_source c i)] at hcons
  omega

lemma nxValid_vanish {c : List ℤ} {f : ℕ → ℕ → ℤ} (hval : nxValid c f) :
    vanish c (fun i j => f j i) := by
  intro i hi j hj hneg
  by_cases hedge : c.getD j 0 < 0 ∧ 0 < c.getD i 0
  · have hb := nxValid_bounds hval (u := j) (by omega) (v := i) (by omega)
    by_cases hpos : 0 < f j i
    · exact absurd ⟨hedge.2, hedge.1, hpos⟩ hneg
    · show f j i = 0
      omega
  · exact nxValid_zero hval (by omega) (by omega)
      (nxCap_player_none hj hi (by tauto))

/-
The settlement extracted from any maximum flow on a balanced ledger fully
settles the ledger.
-/
lemma nx_settles {c : List ℤ} {f : ℕ → ℕ → ℤ} (hsum : c.sum = 0)
    (hmf : nxMaxFlow c f) : settles c (find_settlement_nx c f) := by
  rw [nx_as_or]
  exact extract_settles (nxValid_vanish hmf.1)
    (fun _ hv hcv => maxflow_cred_col hsum hmf hv hcv)
    (fun _ hv hcv => maxflow_debtor_row hsum hmf hv hcv)

lemma collectBest_map_some (rs : List Settlement) (acc : ℕ × Option Settlement) :
    collectBest acc (rs.map some) = Except.ok ((rs.foldl bestStep acc).2) := by
  induction rs generalizing acc with
  | nil => rfl
  | cons r t ih =>
      rw [List.map_cons, collectBest, List.foldl_cons]
      exact ih _

lemma bestStep_fst_le (acc : ℕ × Option Settlement) (s : Settlement) :
    (bestStep acc s).1 ≤ acc.1 := by
  rw [bestStep]; split <;> omega

lemma foldl_fst_le (rs : List Settlement) (acc : ℕ × Option Settlement) :
    (rs.foldl bestStep acc).1 ≤ acc.1 := by
  induction rs generalizing acc with
  | nil => exact le_refl _
  | cons r t ih =>
      rw [List.foldl_cons]
      exact le_trans (ih _) (bestStep_fst_le acc r)

lemma bestStep_inv {acc : ℕ × Option Settlement}
    (h : ∀ t, acc.2 = some t → acc.1 = settlementCost t) (s : Settlement) :
    ∀ t, (bestStep acc s).2 = some t → (bestStep acc s).1 = settlementCost t := by
  intro t ht
  rw [bestStep] at ht ⊢
  split at ht
  · rw [if_pos (by assumption)]
    obtain rfl : s = t := Option.some.inj ht
    rfl
  · rw [if_neg (by assumption)]
    exact h t ht

lemma foldl_inv (rs : List Settlement) {acc : ℕ × Option Settlement}
    (h : ∀ t, acc.2 = some t → acc.1 = settlementCost t) :
    ∀ t, (rs.foldl bestStep acc).2 = some t → (rs.foldl bestStep acc).1 = settlementCost t := by
  induction rs generalizing acc with
  | nil => exact h
  | cons r t ih =>
      rw [List.foldl_cons]
      exact ih (bestStep_inv h r)

lemma foldl_isSome (rs : List Settlement) {acc : ℕ × Option Settlement}
    (h : acc.2.isSome) : ((rs.foldl bestStep acc).2).isSome := by
  induction rs generalizing acc with
  | nil => exact h
  | cons r t ih =>
      rw [List.foldl_cons]
      refine ih ?_
      rw [bestStep]
      split
      · rfl
      · exact h

lemma foldl_mem (rs : List Settlement) {acc : ℕ × Option Settlement} {s : Settlement}
    (hs : (rs.foldl bestStep acc).2 = some s) : acc.2 = some s ∨ s ∈ rs := by
  induction rs generalizing acc with
  | nil => exact Or.inl hs
  | cons r t ih =>
      rw [List.foldl_cons] at hs
      rcases ih hs with hA | hB
      · rw [bestStep] at hA
        split at hA
        · obtain rfl : r = s := Option.some.inj hA
          exact Or.inr (List.mem_cons_self r t)
        · exact Or.inl hA
      · exact Or.inr (List.mem_cons_of_mem r hB)

lemma foldl_no_improve (rs : List Settlement) {acc : ℕ × Option Settlement}
    (h : ∀ r ∈ rs, acc.1 ≤ settlementCost r) : rs.foldl bestStep acc = acc := by
  induction rs with
  | nil => rfl
  | cons r t ih =>
      rw [List.foldl_cons, bestStep,
        if_neg (by have := h r (List.mem_cons_self r t); omega)]
      exact ih fun x hx => h x (List.mem_cons_of_mem r hx)

lemma collectBest_ok_some_mem (outs : List (Option Settlement))
    {acc : ℕ × Option Settlement} {s : Settlement}
    (h : collectBest acc outs = Except.ok (some s)) :
    acc.2 = some s ∨ some s ∈ outs := by
  induction outs generalizing acc with
  | nil =>
      rw [collectBest] at h
      exact Or.inl (Except.ok.inj h)
  | cons o t ih =>
      cases o with
      | none => exact absurd h (by rw [collectBest]; simp)
      | some r =>
          rw [collectBest] at h
          rcases ih h with hA | hB
          · rw [bestStep] at hA
            split at hA
            · obtain rfl : r = s := Option.some.inj hA
              exact Or.inr (List.mem_cons_self _ t)
            · exact Or.inl hA
          · exact Or.inr (List.mem_cons_of_mem _ hB)

lemma chunkSize_zero (cpu : ℕ) : chunkSize 0 cpu = 0 := by
  rw [chunkSize]
  rcases Nat.eq_zero_or_pos cpu with h | h
  · rw [h]
  · exact Nat.div_eq_of_lt (by omega)

lemma chunkSize_pos {n cpu : ℕ} (hn : 1 ≤ n) (hcpu : 1 ≤ cpu) : 1 ≤ chunkSize n cpu := by
  rw [chunkSize, Nat.le_div_iff_mul_le (by omega)]
  omega

lemma chunkSize_pos_inv {n cpu : ℕ} (h : 1 ≤ chunkSize n cpu) : 1 ≤ n ∧ 1 ≤ cpu := by
  constructor
  · by_contra hn
    rw [show n = 0 by omega, chunkSize_zero] at h
    omega
  · by_contra hc
    rw [chunkSize, show cpu = 0 by omega, Nat.div_zero] at h
    omega

lemma find_best_run {c : List ℤ} {cpu : ℕ} {outs : List (Option Settlement)}
    (hn : 1 ≤ outs.length) (hcpu : 1 ≤ cpu) :
    find_best_settlement c cpu outs
      = collectBest (c.length * c.length + 1, none) outs := by
  rw [find_best_settlement, if_neg (by have := chunkSize_pos hn hcpu; omega)]

lemma find_best_ok {c : List ℤ} {cpu : ℕ} {outs : List (Option Settlement)}
    {x : Option Settlement}
    (h : find_best_settlement c cpu outs = Except.ok x) :
    1 ≤ outs.length ∧ 1 ≤ cpu ∧
      collectBest (c.length * c.length + 1, none) outs = Except.ok x := by
  rw [find_best_settlement] at h
  split at h
  · exact absurd h (by simp)
  · next hch =>
      obtain ⟨h1, h2⟩ := chunkSize_pos_inv
        (show 1 ≤ chunkSize outs.length cpu by omega)
      exact ⟨h1, h2, h⟩

/-! Concrete analysis of the networkx graph of the malformed ledger
`[-100, 50]` (nodes: debtor 0, creditor 1, source 2, sink 3; edges
`2 → 0` capacity 100, `0 → 1` capacity 50, `1 → 3` capacity 50). -/

lemma nx_fifty_sum (g : ℕ → ℤ) :
    ∑ v in Finset.range 4, g v = g 0 + g 1 + g 2 + g 3 := by
  rw [show (4:ℕ) = 3 + 1 from rfl, Finset.sum_range_succ,
    show (3:ℕ) = 2 + 1 from rfl, Finset.sum_range_succ,
    show (2:ℕ) = 1 + 1 from rfl, Finset.sum_range_succ,
    show (1:ℕ) = 0 + 1 from rfl, Finset.sum_range_succ, Finset.sum_range_zero]
  ring

lemma nx_fifty_value {g : ℕ → ℕ → ℤ} (hg : nxValid [-100, 50] g) :
    nxValue [-100, 50] g = g 0 1 ∧ g 0 1 ≤ 50 := by
  have hz21 : g 2 1 = 0 := nxValid_zero hg (by decide) (by decide) (by decide)
  have hz22 : g 2 2 = 0 := nxValid_zero hg (by decide) (by decide) (by decide)
  have hz23 : g 2 3 = 0 := nxValid_zero hg (by decide) (by decide) (by decide)
  have hz00 : g 0 0 = 0 := nxValid_zero hg (by decide) (by decide) (by decide)
  have hz10 : g 1 0 = 0 := nxValid_zero hg (by decide) (by decide) (by decide)
  have hz30 : g 3 0 = 0 := nxValid_zero hg (by decide) (by decide) (by decide)
  have hz02 : g 0 2 = 0 := nxValid_zero hg (by decide) (by decide) (by decide)
  have hz03 : g 0 3 = 0 := nxValid_zero hg (by decide) (by decide) (by decide)
  have hb := (nxValid_bounds hg (u := 0) (by decide) (v := 1) (by decide)).2
  rw [(by decide : nxCap [-100, 50] 0 1 = some 50), Option.getD_some] at hb
  have hc0 : (∑ u in Finset.range 4, g u 0) = ∑ w in Finset.range 4, g 0 w :=
    hg.2 0 (by decide)
  rw [nx_fifty_sum, nx_fifty_sum] at hc0
  have hval : nxValue [-100, 50] g = ∑ v in Finset.range 4, g 2 v := rfl
  rw [nx_fifty_sum] at hval
  constructor <;> omega

lemma nx_fifty_extract {f : ℕ → ℕ → ℤ} (hmf : nxMaxFlow [-100, 50] f) :
    find_settlement_nx [-100, 50] f = [(1, [(0, 50)])] := by
  obtain ⟨hval, hmax⟩ := hmf
  have hfty := nx_fifty_value hval
  have hge : (50:ℤ) ≤ nxValue [-100, 50] f := by
    have h := hmax nxPartialFlow (by decide)
    rwa [(by decide : nxValue [-100, 50] nxPartialFlow = 50)] at h
  have h01 : f 0 1 = 50 := by omega
  have hz11 : f 1 1 = 0 := nxValid_zero hval (by decide) (by decide) (by decide)
  have hpays1 : nxPays [-100, 50] f 1 = [(0, 50)] := by
    rw [nxPays, (by decide : List.range ([-100, 50] : List ℤ).length = [0, 1])]
    rw [List.filterMap_cons, List.filterMap_cons, List.filterMap_nil,
      if_pos (by rw [h01]; exact ⟨by decide, by decide⟩), h01,
      if_neg (by rw [hz11]; exact fun h => absurd h.1 (by decide))]
  have hpays0 : nxPays [-100, 50] f 0 = [] := by
    have hz00 : f 0 0 = 0 := nxValid_zero hval (by decide) (by decide) (by decide)
    rw [nxPays, (by decide : List.range ([-100, 50] : List ℤ).length = [0, 1])]
    rw [List.filterMap_cons, List.filterMap_cons, List.filterMap_nil,
      if_neg (by rw [hz00]; exact fun h => absurd h.2 (by decide)),
      if_neg (fun h => absurd h.1 (by decide))]
  rw [find_settlement_nx, (by decide : List.range ([-100, 50] : List ℤ).length = [0, 1])]
  rw [List.filterMap_cons, List.filterMap_cons, List.filterMap_nil,
    if_neg (fun h => absurd h.1 (by decide)),
    if_pos ⟨by decide, by rw [hpays1]; exact (by decide : ([(0, 50)] : List (ℕ × ℤ)) ≠ [])⟩,
    hpays1]

/-! The claims. -/

/-- C1: for every ledger whose balances sum to zero, any settlement the
search `find_best_settlement` returns — with the per-trial result produced
by either backend (`find_settlement_or` on a feasible OR-tools flow, or
`find_settlement_nx` on a networkx maximum flow) — exactly zeroes every
participant's balance: each creditor receives exactly its positive balance
and each debtor pays exactly the magnitude of its negative balance; no
partial settlement is ever returned. -/
theorem C1_search_fully_settles (c : List ℤ) (cpu : ℕ)
    (outcomes : List (Option Settlement))
    (s : Settlement) (hsum : c.sum = 0)
    (htrial : ∀ o ∈ outcomes, ∀ t, o = some t → orOutcome c t ∨ nxOutcome c t)
    (hres : find_best_settlement c cpu outcomes = Except.ok (some s)) :
    settles c s := by
  rcases collectBest_ok_some_mem outcomes (find_best_ok hres).2.2 with hA | hB
  · exact absurd hA (by simp)
  · rcases htrial (some s) hB s rfl with ⟨f, hf, rfl⟩ | ⟨f, hf, rfl⟩
    · exact or_settles hf
    · exact nx_settles hsum hf

theorem C1_search_fully_settles_witness : settles [-100, 100] [(1, [(0, 100)])] := by
  refine C1_search_fully_settles [-100, 100] 1 [some [(1, [(0, 100)])]] _ (by decide)
    ?_ rfl
  intro o ho t hot
  rw [List.mem_singleton] at ho
  subst ho
  obtain rfl : [(1, [(0, 100)])] = t := Option.some.inj hot
  exact Or.inl ⟨gflow [-100, 100], by decide, by decide⟩

/-- C2: the claim holds for the OR-tools backend — on a ledger whose
balances do not sum to zero no feasible flow exists, every trial's
`Solve()` is infeasible, the failed `assert` is re-raised once in the
parent, and no settlement is returned (first two conjuncts) — but the
networkx fallback backend contradicts it: on the unbalanced ledger
`[-100, 50]` every maximum flow extracts to the partial settlement
`[(1, [(0, 50)])]`, silently returned, which does not settle
participant 0 (third conjunct).  The spec's requirement ("must raise the
fatal malformed-ledger error, not silently return a partial settlement")
marks the networkx path as a code bug. -/
theorem C2_malformed_ledger :
    (∀ (c : List ℤ) (f : ℕ → ℕ → ℤ), c.sum ≠ 0 → ¬ orFeasible c f) ∧
    (∀ (c : List ℤ) (cpu : ℕ) (outs : List (Option Settlement)),
      c.sum ≠ 0 → 1 ≤ cpu → outs ≠ [] →
      (∀ o ∈ outs, ∀ t, o = some t → orOutcome c t) →
      find_best_settlement c cpu outs = Except.error SearchError.assertError) ∧
    (∀ f, nxMaxFlow [-100, 50] f →
      find_settlement_nx [-100, 50] f = [(1, [(0, 50)])]
        ∧ ¬ settles [-100, 50] [(1, [(0, 50)])]) := by
  refine ⟨fun c f hsum hf => hsum (orFeasible_sum_zero hf), ?_, ?_⟩
  · intro c cpu outs hsum hcpu hne hout
    cases outs with
    | nil => exact absurd rfl hne
    | cons o t =>
        have ho : o = none := by
          cases o with
          | none => rfl
          | some r =>
              obtain ⟨f, hf, _⟩ := hout (some r) (List.mem_cons_self _ t) r rfl
              exact absurd (orFeasible_sum_zero hf) hsum
        rw [find_best_run (by simp) hcpu, ho]
        rfl
  · intro f hmf
    exact ⟨nx_fifty_extract hmf, by decide⟩

theorem C2_malformed_ledger_witness :
    ¬ orFeasible [-100, 50] (gflow [-100, 50]) ∧
    find_best_settlement [-100, 50] 1 [none] = Except.error SearchError.assertError ∧
    (find_settlement_nx [-100, 50] nxPartialFlow = [(1, [(0, 50)])]
      ∧ ¬ settles [-100, 50] [(1, [(0, 50)])]) := by
  refine ⟨C2_malformed_ledger.1 [-100, 50] (gflow [-100, 50]) (by decide), ?_, ?_⟩
  · refine C2_malformed_ledger.2.1 [-100, 50] 1 [none] (by decide) (by omega) (by simp) ?_
    intro o ho t hot
    rw [List.mem_singleton] at ho
    subst ho
    exact absurd hot (by simp)
  · refine C2_malformed_ledger.2.2 nxPartialFlow ⟨by decide, ?_⟩
    intro g hg
    rw [(by decide : nxValue [-100, 50] nxPartialFlow = 50)]
    exact (nx_fifty_value hg).1 ▸ (nx_fifty_value hg).2

/-- C3 counterexample: with ledger `[-1, -1, 1, 1]`, two distinct trial
settlements of equal score (both reachable from feasible OR-tools flows)
arriving in opposite orders produce different selected results: the
aggregator keeps the first arrival, so the selection depends on worker
scheduling (arrival) order, contradicting the claim that the first trial in
trial-number order wins independently of scheduling. -/
theorem C3_counterexample :
    orOutcome [-1, -1, 1, 1] [(2, [(0, 1)]), (3, [(1, 1)])] ∧
    orOutcome [-1, -1, 1, 1] [(2, [(1, 1)]), (3, [(0, 1)])] ∧
    settlementCost [(2, [(0, 1)]), (3, [(1, 1)])]
      = settlementCost [(2, [(1, 1)]), (3, [(0, 1)])] ∧
    ([(2, [(0, 1)]), (3, [(1, 1)])] : Settlement) ≠ [(2, [(1, 1)]), (3, [(0, 1)])] ∧
    find_best_settlement [-1, -1, 1, 1] 1
        [some [(2, [(0, 1)]), (3, [(1, 1)])], some [(2, [(1, 1)]), (3, [(0, 1)])]]
      = Except.ok (some [(2, [(0, 1)]), (3, [(1, 1)])]) ∧
    find_best_settlement [-1, -1, 1, 1] 1
        [some [(2, [(1, 1)]), (3, [(0, 1)])], some [(2, [(0, 1)]), (3, [(1, 1)])]]
      = Except.ok (some [(2, [(1, 1)]), (3, [(0, 1)])]) := by
  refine ⟨⟨fun i j => if (i = 2 ∧ j = 0) ∨ (i = 3 ∧ j = 1) then 1 else 0, by decide, by decide⟩,
    ⟨fun i j => if (i = 2 ∧ j = 1) ∨ (i = 3 ∧ j = 0) then 1 else 0, by decide, by decide⟩,
    by decide, by decide, rfl, rfl⟩

/-- C3 amended: ties between equal-score settlements are broken by arrival
order from the workers (`imap_unordered` yields in completion order): the
first result to arrive with the minimum score wins and later arrivals with
an equal (or worse) score never replace the earlier best — so the selection
depends on worker scheduling order rather than on trial index. -/
theorem C3_ties_arrival_order (c : List ℤ) (cpu : ℕ) (rs1 rs2 : List Settlement)
    (s : Settlement)
    (h1 : find_best_settlement c cpu (rs1.map some) = Except.ok (some s))
    (h2 : ∀ r ∈ rs2, settlementCost s ≤ settlementCost r) :
    find_best_settlement c cpu ((rs1 ++ rs2).map some) = Except.ok (some s) := by
  obtain ⟨hlen, hcpu, hcol⟩ := find_best_ok h1
  rw [collectBest_map_some] at hcol
  have hs1 : (rs1.foldl bestStep (c.length * c.length + 1, none)).2 = some s :=
    Except.ok.inj hcol
  have hinv0 : ∀ t, ((c.length * c.length + 1, none) : ℕ × Option Settlement).2 = some t →
      ((c.length * c.length + 1, none) : ℕ × Option Settlement).1 = settlementCost t :=
    fun t ht => absurd ht (by simp)
  have hcost := foldl_inv rs1 hinv0 s hs1
  have hlen2 : 1 ≤ ((rs1 ++ rs2).map some).length := by
    rw [List.length_map, List.length_append]
    rw [List.length_map] at hlen
    omega
  rw [find_best_run hlen2 hcpu, collectBest_map_some, List.foldl_append,
    foldl_no_improve rs2 (fun r hr => by rw [hcost]; exact h2 r hr), hs1]

theorem C3_ties_arrival_order_witness :
    find_best_settlement [-100, 100] 1
        ((([[(1, [(0, 100)])]] : List Settlement) ++ [[(1, [(0, 100)])]]).map some)
      = Except.ok (some [(1, [(0, 100)])]) :=
  C3_ties_arrival_order [-100, 100] 1 [[(1, [(0, 100)])]] [[(1, [(0, 100)])]]
    [(1, [(0, 100)])] rfl (by decide)

/-- C4: for a fixed ledger, continuing the search from the first `N` trial
results to `N + M` results never increases the returned settlement's edge
count: if the first `N` arrivals select a settlement, the longer run still
selects one, of edge count less than or equal. -/
theorem C4_more_trials_no_worse (c : List ℤ) (cpu : ℕ) (rs1 rs2 : List Settlement)
    (s1 : Settlement)
    (h1 : find_best_settlement c cpu (rs1.map some) = Except.ok (some s1)) :
    ∃ s12, find_best_settlement c cpu ((rs1 ++ rs2).map some) = Except.ok (some s12) ∧
      settlementCost s12 ≤ settlementCost s1 := by
  obtain ⟨hlen, hcpu, hcol⟩ := find_best_ok h1
  rw [collectBest_map_some] at hcol
  have hs1 := Except.ok.inj hcol
  have hinv0 : ∀ t, ((c.length * c.length + 1, none) : ℕ × Option Settlement).2 = some t →
      ((c.length * c.length + 1, none) : ℕ × Option Settlement).1 = settlementCost t :=
    fun t ht => absurd ht (by simp)
  have hlen2 : 1 ≤ ((rs1 ++ rs2).map some).length := by
    rw [List.length_map, List.length_append]
    rw [List.length_map] at hlen
    omega
  have hsome : (((rs1 ++ rs2).foldl bestStep (c.length * c.length + 1, none)).2).isSome := by
    rw [List.foldl_append]
    exact foldl_isSome rs2 (by rw [hs1]; rfl)
  obtain ⟨s12, hs12⟩ := Option.isSome_iff_exists.mp hsome
  refine ⟨s12, ?_, ?_⟩
  · rw [find_best_run hlen2 hcpu, collectBest_map_some, hs12]
  · have hc12 := foldl_inv (rs1 ++ rs2) hinv0 s12 hs12
    have hc1 := foldl_inv rs1 hinv0 s1 hs1
    have hle : ((rs1 ++ rs2).foldl bestStep (c.length * c.length + 1, none)).1
        ≤ (rs1.foldl bestStep (c.length * c.length + 1, none)).1 := by
      rw [List.foldl_append]
      exact foldl_fst_le rs2 _
    omega

theorem C4_more_trials_no_worse_witness :
    ∃ s12, find_best_settlement [-100, 100] 1
        ((([[(1, [(0, 100)])]] : List Settlement) ++ []).map some)
        = Except.ok (some s12) ∧
      settlementCost s12 ≤ settlementCost [(1, [(0, 100)])] :=
  C4_more_trials_no_worse [-100, 100] 1 [[(1, [(0, 100)])]] [] [(1, [(0, 100)])] rfl

/-- C6: every payment entry `(debtor, amount)` in any settlement emitted by
either extractor has strictly positive amount — zero-flow edges are omitted
entirely and never appear as zero-amount payments. -/
theorem C6_amounts_positive (c : List ℤ) (f : ℕ → ℕ → ℤ) :
    (∀ p ∈ find_settlement_or c f, ∀ q ∈ p.2, 0 < q.2) ∧
    (∀ p ∈ find_settlement_nx c f, ∀ q ∈ p.2, 0 < q.2) := by
  constructor
  · rintro ⟨i, pays⟩ hp q hq
    obtain ⟨-, -, rfl, -⟩ := extract_key_mem hp
    exact (orPays_pair_mem hq).2.2.1
  · rintro ⟨i, pays⟩ hp q hq
    rw [nx_as_or] at hp
    obtain ⟨-, -, rfl, -⟩ := extract_key_mem hp
    have hq2 : q ∈ orPays c (fun a b => f b a) i := hq
    exact (orPays_pair_mem hq2).2.2.1

theorem C6_amounts_positive_witness : (0:ℤ) < 100 :=
  (C6_amounts_positive [-100, 100] (gflow [-100, 100])).1 (1, [(0, 100)])
    (by decide) (0, 100) (by decide)

lemma orArcs_mem {c : List ℤ} {a : ℕ × ℕ} (ha : a ∈ orArcs c) :
    a.1 < c.length ∧ a.2 < c.length ∧ 0 < c.getD a.1 0 ∧ c.getD a.2 0 < 0 := by
  rw [orArcs, List.mem_flatMap] at ha
  obtain ⟨i, hi, hmem⟩ := ha
  rw [List.mem_range] at hi
  by_cases hci : 0 < c.getD i 0
  · rw [if_pos hci, List.mem_filterMap] at hmem
    obtain ⟨j, hj, hsome⟩ := hmem
    rw [List.mem_range] at hj
    by_cases hcj : c.getD j 0 < 0
    · rw [if_pos hcj] at hsome
      obtain rfl : (i, j) = a := Option.some.inj hsome
      exact ⟨hi, hj, hci, hcj⟩
    · rw [if_neg hcj] at hsome
      exact absurd hsome (by simp)
  · rw [if_neg hci] at hmem
    exact absurd hmem (by simp)

/-- C7: both graph builders create player-to-player payment edges only
between a creditor and a debtor — never between two debtors, two creditors,
or a participant and itself, and zero-balance participants get no edges —
with capacity the minimum of the endpoints' balance magnitudes; and
consequently no payment in any emitted settlement connects two creditors,
two debtors, or a participant to itself. -/
theorem C7_edges_debtor_creditor_only (c : List ℤ) (f : ℕ → ℕ → ℤ) :
    (∀ a ∈ orArcs c, 0 < c.getD a.1 0 ∧ c.getD a.2 0 < 0 ∧ a.1 ≠ a.2 ∧
      orCap c a.1 a.2 = min |c.getD a.1 0| |c.getD a.2 0|) ∧
    (∀ u v cap, nxCap c u v = some cap → u < c.length → v < c.length →
      c.getD u 0 < 0 ∧ 0 < c.getD v 0 ∧ u ≠ v ∧ cap = min |c.getD u 0| |c.getD v 0|) ∧
    (∀ v, c.getD v 0 = 0 → ∀ a ∈ orArcs c, a.1 ≠ v ∧ a.2 ≠ v) ∧
    (∀ p ∈ find_settlement_or c f, ∀ q ∈ p.2,
      0 < c.getD p.1 0 ∧ c.getD q.1 0 < 0 ∧ p.1 ≠ q.1) ∧
    (∀ p ∈ find_settlement_nx c f, ∀ q ∈ p.2,
      0 < c.getD p.1 0 ∧ c.getD q.1 0 < 0 ∧ p.1 ≠ q.1) := by
  refine ⟨?_, ?_, ?_, ?_, ?_⟩
  · intro a ha
    obtain ⟨-, -, h3, h4⟩ := orArcs_mem ha
    have hne : a.1 ≠ a.2 := by
      intro heq
      rw [heq] at h3
      omega
    rw [orCap, abs_of_pos h3, abs_of_neg h4]
    exact ⟨h3, h4, hne, rfl⟩
  · intro u v cap hcap hu hv
    rw [nxCap, if_neg (by omega), if_neg (by omega)] at hcap
    by_cases h3 : u < c.length ∧ v < c.length ∧ c.getD u 0 < 0 ∧ 0 < c.getD v 0
    · rw [if_pos h3] at hcap
      obtain ⟨-, -, hdu, hcv⟩ := h3
      have hne : u ≠ v := by
        intro heq
        rw [heq] at hdu
        omega
      obtain rfl := (Option.some.inj hcap).symm
      rw [abs_of_neg hdu, abs_of_pos hcv]
      exact ⟨hdu, hcv, hne, rfl⟩
    · rw [if_neg h3] at hcap
      exact absurd hcap (by simp)
  · intro v hv a ha
    obtain ⟨-, -, h3, h4⟩ := orArcs_mem ha
    constructor
    · intro heq
      rw [heq, hv] at h3
      omega
    · intro heq
      rw [heq, hv] at h4
      omega
  · rintro ⟨i, pays⟩ hp q hq
    obtain ⟨-, hci, rfl, -⟩ := extract_key_mem hp
    obtain ⟨-, hq2, -, -⟩ := orPays_pair_mem hq
    have hne : i ≠ q.1 := by
      intro heq
      rw [heq] at hci
      omega
    exact ⟨hci, hq2, hne⟩
  · rintro ⟨i, pays⟩ hp q hq
    rw [nx_as_or] at hp
    obtain ⟨-, hci, rfl, -⟩ := extract_key_mem hp
    have hqm : q ∈ orPays c (fun a b => f b a) i := hq
    obtain ⟨-, hq2, -, -⟩ := orPays_pair_mem hqm
    have hne : i ≠ q.1 := by
      intro heq
      rw [heq] at hci
      omega
    exact ⟨hci, hq2, hne⟩

theorem C7_edges_debtor_creditor_only_witness :
    0 < ([-100, 100] : List ℤ).getD 1 0 ∧ ([-100, 100] : List ℤ).getD 0 0 < 0 ∧ (1:ℕ) ≠ 0 :=
  (C7_edges_debtor_creditor_only [-100, 100] (gflow [-100, 100])).2.2.2.1
    (1, [(0, 100)]) (by decide) (0, 100) (by decide)

lemma collectBest_keep_empty (rest : List (Option Settlement))
    (hall : ∀ o ∈ rest, o = some ([] : Settlement)) :
    collectBest (0, some ([] : Settlement)) rest = Except.ok (some []) := by
  induction rest with
  | nil => rfl
  | cons o t ih =>
      rw [hall o (List.mem_cons_self o t)]
      show collectBest (0, some ([] : Settlement)) t = Except.ok (some [])
      exact ih fun x hx => hall x (List.mem_cons_of_mem o hx)

/-- C8: the claim matches the spec's stated intent ("zero participants or
zero trials: not an error; yields an empty Settlement"), but on zero trials
the code raises: line 113 computes `chunk = math.ceil(0 / cpu_count()) = 0`
and passes it as `chunksize` to `pool.imap_unordered`, which rejects any
chunk size below 1 with `ValueError` — the search raises instead of
returning an empty settlement (first conjunct).  The zero-participant half
does hold: with at least one trial every outcome is the empty settlement
and the search returns it without raising (second conjunct). -/
theorem C8_zero_trials_raise :
    (∀ (c : List ℤ) (cpu : ℕ),
      find_best_settlement c cpu [] = Except.error SearchError.valueError) ∧
    (∀ (cpu : ℕ) (outs : List (Option Settlement)), 1 ≤ cpu → outs ≠ [] →
      (∀ o ∈ outs, ∃ t, o = some t ∧ (orOutcome [] t ∨ nxOutcome [] t)) →
      find_best_settlement [] cpu outs = Except.ok (some [])) := by
  constructor
  · intro c cpu
    rw [find_best_settlement,
      if_pos (by rw [List.length_nil, chunkSize_zero]; omega)]
  · intro cpu outs hcpu hne hout
    have hall : ∀ o ∈ outs, o = some ([] : Settlement) := by
      intro o ho
      obtain ⟨t, rfl, hcase⟩ := hout o ho
      rcases hcase with ⟨f, -, rfl⟩ | ⟨f, -, rfl⟩ <;> rfl
    cases outs with
    | nil => exact absurd rfl hne
    | cons o t =>
        rw [find_best_run (by simp) hcpu, hall o (List.mem_cons_self o t)]
        show collectBest (0, some ([] : Settlement)) t = Except.ok (some [])
        exact collectBest_keep_empty t fun x hx => hall x (List.mem_cons_of_mem o hx)

theorem C8_zero_trials_raise_witness :
    find_best_settlement [-100, 100] 3 [] = Except.error SearchError.valueError ∧
    find_best_settlement [] 1 [some []] = Except.ok (some []) :=
  ⟨C8_zero_trials_raise.1 [-100, 100] 3,
   C8_zero_trials_raise.2 1 [some []] (by omega) (by simp)
     fun o ho => ⟨[], by simpa using ho, Or.inl ⟨fun _ _ => 0, by decide, rfl⟩⟩⟩

lemma draws_disjoint_key {E a b ea eb : ℕ} (hea : ea < E) (hab : a < b) :
    a * E + ea < b * E + eb := by
  have h2 : a * E + E = (a + 1) * E := by ring
  have h3 : (a + 1) * E ≤ b * E := Nat.mul_le_mul_right E hab
  omega

/-- C9 counterexample: two distinct trials of the pooled run — the first
solve of worker 0 and the first solve of worker 1 — consume exactly the
same nonempty set of stream positions and draw exactly the same cost
values, because every worker process starts from the same seeded generator
state (`random.seed(123)`, line 10): cost draws ARE reused across trials,
refuting the claim's no-reuse conjunct. -/
theorem C9_rng_reuse_counterexample :
    ((0, 0) : ℕ × ℕ) ≠ (1, 0) ∧
    pooledDraws [-100, 100] (0, 0) = pooledDraws [-100, 100] (1, 0) ∧
    pooledDraws [-100, 100] (0, 0) ≠ [] ∧
    pooledCosts [-100, 100] (fun n => (n : ℤ)) (0, 0)
      = pooledCosts [-100, 100] (fun n => (n : ℤ)) (1, 0) :=
  ⟨by decide, rfl, by decide, rfl⟩

/-- C9 amended: each trial draws exactly one cost per candidate edge (the
cost list has length `numArcs c`) and every drawn cost is an integer in the
symmetric range `[-10^9, 10^9]`; trials executed within one worker consume
disjoint fresh draws, but across workers draws are not fresh — trials at
the same within-worker index in different workers draw identical cost
values from identical positions of the duplicated seeded stream. -/
theorem C9_costs_per_trial (c : List ℤ) (rng : ℕ → ℤ) (t t2 : ℕ × ℕ) :
    (pooledCosts c rng t).length = numArcs c ∧
    (∀ w ∈ pooledCosts c rng t, -1000000000 ≤ w ∧ w ≤ 1000000000) ∧
    (t.2 ≠ t2.2 → ∀ p ∈ pooledDraws c t, p ∉ pooledDraws c t2) ∧
    (t.2 = t2.2 → pooledCosts c rng t = pooledCosts c rng t2) := by
  refine ⟨by rw [pooledCosts, pooledDraws, List.length_map, List.length_map,
    List.length_range], ?_, ?_, ?_⟩
  · intro w hw
    rw [pooledCosts, List.mem_map] at hw
    obtain ⟨p, hp, rfl⟩ := hw
    unfold edge_weight
    have h1 := Int.emod_nonneg (rng p) (by norm_num : (2000000001:ℤ) ≠ 0)
    have h2 := Int.emod_lt_of_pos (rng p) (by norm_num : (0:ℤ) < 2000000001)
    omega
  · intro hne p hp hp2
    rw [pooledDraws, List.mem_map] at hp hp2
    obtain ⟨e, he, rfl⟩ := hp
    obtain ⟨e2, he2, heq⟩ := hp2
    rw [List.mem_range] at he he2
    rcases Nat.lt_or_ge t.2 t2.2 with h | h
    · exact absurd heq (ne_of_gt (draws_disjoint_key he h))
    · have hlt : t2.2 < t.2 := by omega
      exact absurd heq (ne_of_lt (draws_disjoint_key he2 hlt))
  · intro h
    rw [pooledCosts, pooledCosts, pooledDraws, pooledDraws, h]

theorem C9_costs_per_trial_witness :
    (pooledCosts [-100, 100] (fun _ => 0) (0, 0)).length = numArcs [-100, 100] ∧
    0 ∉ pooledDraws [-100, 100] (0, 1) ∧
    pooledCosts [-100, 100] (fun _ => 0) (0, 0)
      = pooledCosts [-100, 100] (fun _ => 0) (1, 0) :=
  ⟨(C9_costs_per_trial [-100, 100] (fun _ => 0) (0, 0) (0, 1)).1,
   (C9_costs_per_trial [-100, 100] (fun _ => 0) (0, 0) (0, 1)).2.2.1
     (by decide) 0 (by decide),
   (C9_costs_per_trial [-100, 100] (fun _ => 0) (0, 0) (1, 0)).2.2.2 rfl⟩

end Settle
